import Mathlib

/-!
Shallow embedding of the roll-nesting optimizer
(`src/roll_nesting_finder_app/app.py`, tab 2: tiler, guillotine packer,
multi-pass search driver).  Numbers are modelled as rationals; the
Python `None` results become `Option`.
-/

namespace RollNesting

/-- A free rectangle `(x, y, w, h)` as used in `pack`'s `free` list. -/
structure Rect where
  x : ℚ
  y : ℚ
  w : ℚ
  h : ℚ
deriving DecidableEq, Repr

/-- A tiled piece: panel id plus the list of orientation options
(the source stores `{"pid": pid, "orientations": [(tile_w, h), (h, tile_w)]}`). -/
structure Piece where
  pid : ℕ
  ors : List (ℚ × ℚ)
deriving DecidableEq, Repr

/-- A placement `(pid, fx, fy, w, h)` as appended to `placed` in `pack`. -/
structure Placed where
  pid : ℕ
  x : ℚ
  y : ℚ
  w : ℚ
  h : ℚ
deriving DecidableEq, Repr

/-- The bound checked for tile count `n`:
`w <= n * roll - (n - 1) * OVERLAP` in `tile_width_only`. -/
def fitsN (w roll ov : ℚ) (n : ℕ) : Prop :=
  w ≤ (n : ℚ) * roll - ((n : ℚ) - 1) * ov

instance (w roll ov : ℚ) (n : ℕ) : Decidable (fitsN w roll ov n) := by
  unfold fitsN; infer_instance

/-- The candidate strip width `(w + (n - 1) * OVERLAP) / n`. -/
def stripW (w ov : ℚ) (n : ℕ) : ℚ :=
  (w + ((n : ℚ) - 1) * ov) / (n : ℚ)

/-- `tile_width_only(w, roll)`: try `n = 1..5` in order, return the first
`((w + (n-1)*OVERLAP)/n, n)` whose bound holds, else `None`. -/
def tile_width_only (w roll ov : ℚ) : Option (ℚ × ℕ) :=
  [1, 2, 3, 4, 5].findSome? fun n =>
    if fitsN w roll ov n then some (stripW w ov n, n) else none

/-- `expand(jobs)`: tile each `(pid, w, h, q)`; abort with `None` on the
first untileable job, else emit `q * n` pieces per job, each with
orientations `[(tile_w, h), (h, tile_w)]`. -/
def expand (roll ov : ℚ) : List (ℕ × ℚ × ℚ × ℕ) → Option (List Piece)
  | [] => some []
  | (pid, w, h, q) :: rest =>
    match tile_width_only w roll ov with
    | none => none
    | some (tw, n) =>
      match expand roll ov rest with
      | none => none
      | some more =>
        some (List.replicate (q * n) ⟨pid, [(tw, h), (h, tw)]⟩ ++ more)

/-- A placement candidate: a free rectangle together with one orientation
`(ow, oh)` of the current piece. -/
structure Cand where
  rect : Rect
  ow : ℚ
  oh : ℚ
deriving DecidableEq, Repr

/-- `w <= fw and h <= fh`: the orientation fits the free rectangle. -/
def candFits (c : Cand) : Prop :=
  c.ow ≤ c.rect.w ∧ c.oh ≤ c.rect.h

instance (c : Cand) : Decidable (candFits c) := by
  unfold candFits; infer_instance

/-- `waste = fw * fh - w * h`. -/
def waste (c : Cand) : ℚ :=
  c.rect.w * c.rect.h - c.ow * c.oh

/-- The candidate list scanned by the nested loops
`for fx, fy, fw, fh in free: for w, h in p["orientations"]:`
(free rectangles in order, orientation 0 before orientation 1). -/
def candidates (free : List Rect) (p : Piece) : List Cand :=
  free.flatMap fun f => p.ors.map fun o => ⟨f, o.1, o.2⟩

/-- One step of the selection loop:
`if w <= fw and h <= fh: waste = ...; if not best or waste < best[0]: best = ...`. -/
def updBest (acc : Option Cand) (c : Cand) : Option Cand :=
  if candFits c then
    match acc with
    | none => some c
    | some b => if waste c < waste b then some c else some b
  else acc

/-- The selection loop over all candidates, starting from `best = None`. -/
def findBest (cs : List Cand) : Option Cand :=
  cs.foldl updBest none

/-- The `right` split `(fx + w, fy, fw - w, h)`. -/
def rightRect (c : Cand) : Rect :=
  ⟨c.rect.x + c.ow, c.rect.y, c.rect.w - c.ow, c.oh⟩

/-- The `bottom` split `(fx, fy + h, fw, fh - h)`. -/
def bottomRect (c : Cand) : Rect :=
  ⟨c.rect.x, c.rect.y + c.oh, c.rect.w, c.rect.h - c.oh⟩

/-- The placement record `(p["pid"], fx, fy, w, h)`. -/
def placeAt (p : Piece) (c : Cand) : Placed :=
  ⟨p.pid, c.rect.x, c.rect.y, c.ow, c.oh⟩

/-- Mutable state of one packing attempt: the `free` and `placed` lists. -/
structure PackSt where
  free : List Rect
  placed : List Placed
deriving DecidableEq, Repr

/-- Append a split region `only if both its dimensions are strictly positive`. -/
def appendIf (l : List Rect) (r : Rect) : List Rect :=
  if 0 < r.w ∧ 0 < r.h then l ++ [r] else l

/-- Processing one piece inside `pack`: pick the best candidate
(`return None` when none fits), record the placement, remove the chosen
free rectangle and append the `right` and `bottom` splits. -/
def packStep (st : PackSt) (p : Piece) : Option PackSt :=
  match findBest (candidates st.free p) with
  | none => none
  | some c =>
    some ⟨appendIf (appendIf (st.free.erase c.rect) (rightRect c)) (bottomRect c),
          st.placed ++ [placeAt p c]⟩

/-- Initial state: `free = [(0, 0, ROLL_WIDTH, 10000)]`, `placed = []`. -/
def initSt (roll : ℚ) : PackSt :=
  ⟨[⟨0, 0, roll, 10000⟩], []⟩

/-- The piece loop of `pack`, threading the state; `None` aborts the attempt. -/
def packGo (st : PackSt) (ps : List Piece) : Option PackSt :=
  ps.foldlM packStep st

/-- `pack(pieces)`: run the loop from the initial state and return `placed`. -/
def pack (roll : ℚ) (ps : List Piece) : Option (List Placed) :=
  (packGo (initSt roll) ps).map PackSt.placed

/-- `length(placed) = max(y + h for _, _, y, _, h in placed)`;
Python's `max` raises on an empty list, modelled as `none`. -/
def layoutLength : List Placed → Option ℚ
  | [] => none
  | q :: rest => some (rest.foldl (fun m r => max m (r.y + r.h)) (q.y + q.h))

/-- One pass of `optimize`'s loop given the packing result of this pass:
`if layout:` skips both a failed (`None`) and an empty (falsy) layout;
`if not best_len or l < best_len:` treats `best_len in (None, 0)` as unset. -/
def passUpdate (acc : Option (List Placed) × Option ℚ) :
    Option (List Placed) → Option (List Placed) × Option ℚ
  | none => acc
  | some [] => acc
  | some (q :: rest) =>
    let l := rest.foldl (fun m r => max m (r.y + r.h)) (q.y + q.h)
    match acc.2 with
    | none => (some (q :: rest), some l)
    | some b => if b = 0 ∨ l < b then (some (q :: rest), some l) else acc

/-- `optimize(pieces)`, with the random shuffles made explicit: `orders` is
the list of piece orders seen by the successive passes.  Returns
`(best_layout, best_len)`, both `None` when every pass was discarded. -/
def optimize (roll : ℚ) (orders : List (List Piece)) :
    Option (List Placed) × Option ℚ :=
  orders.foldl (fun acc o => passUpdate acc (pack roll o)) (none, none)

/-- The lengths of the passes that `optimize` actually considers
(`if layout:` — packing succeeded with a non-empty layout), in pass order. -/
def successLens (roll : ℚ) (orders : List (List Piece)) : List ℚ :=
  orders.filterMap fun o => (pack roll o).bind layoutLength

/-- `optimize` with the in-place mutation of the caller's piece list made
explicit: the second component is the contents of the `pieces` list after
the run (each pass overwrites it with that pass's shuffle). -/
def shuffleRun (roll : ℚ) (pieces : List Piece) (shuffles : List (List Piece)) :
    (Option (List Placed) × Option ℚ) × List Piece :=
  shuffles.foldl (fun st o => (passUpdate st.1 (pack roll o), o)) ((none, none), pieces)

/-! ### Tiler lemmas -/

lemma tile_eq_ite (w roll ov : ℚ) :
    tile_width_only w roll ov =
      (if fitsN w roll ov 1 then some (stripW w ov 1, 1)
       else if fitsN w roll ov 2 then some (stripW w ov 2, 2)
       else if fitsN w roll ov 3 then some (stripW w ov 3, 3)
       else if fitsN w roll ov 4 then some (stripW w ov 4, 4)
       else if fitsN w roll ov 5 then some (stripW w ov 5, 5)
       else none) := by
  simp only [tile_width_only, List.findSome?]
  split_ifs <;> rfl

lemma tile_some_char (w roll ov s : ℚ) (n : ℕ)
    (h : tile_width_only w roll ov = some (s, n)) :
    1 ≤ n ∧ n ≤ 5 ∧ fitsN w roll ov n ∧
      (∀ m : ℕ, 1 ≤ m → m < n → ¬ fitsN w roll ov m) ∧ s = stripW w ov n := by
  rw [tile_eq_ite] at h
  split_ifs at h with h1 h2 h3 h4 h5 <;>
    (simp only [Option.some.injEq, Prod.mk.injEq] at h
     obtain ⟨hs, hn⟩ := h
     subst hn
     refine ⟨by norm_num, by norm_num, by assumption, ?_, hs.symm⟩
     intro m hm1 hmn
     interval_cases m <;> assumption)

lemma tile_none_char (w roll ov : ℚ) :
    tile_width_only w roll ov = none ↔
      ∀ n : ℕ, 1 ≤ n → n ≤ 5 → ¬ fitsN w roll ov n := by
  rw [tile_eq_ite]
  split_ifs with h1 h2 h3 h4 h5
  · exact iff_of_false (by simp) fun hall => hall 1 (by norm_num) (by norm_num) h1
  · exact iff_of_false (by simp) fun hall => hall 2 (by norm_num) (by norm_num) h2
  · exact iff_of_false (by simp) fun hall => hall 3 (by norm_num) (by norm_num) h3
  · exact iff_of_false (by simp) fun hall => hall 4 (by norm_num) (by norm_num) h4
  · exact iff_of_false (by simp) fun hall => hall 5 (by norm_num) (by norm_num) h5
  · refine iff_of_true rfl fun n hn1 hn5 => ?_
    interval_cases n <;> assumption

lemma tile_single (w roll ov : ℚ) (h : w ≤ roll) :
    tile_width_only w roll ov = some (w, 1) := by
  have h1 : fitsN w roll ov 1 := by unfold fitsN; push_cast; linarith
  rw [tile_eq_ite, if_pos h1]
  have : stripW w ov 1 = w := by unfold stripW; push_cast; ring_nf
  rw [this]

/-- C1: `tile_width_only` returns, for the smallest `N` in `1..5` with
`w ≤ N*roll - (N-1)*overlap` (candidates tried in increasing order, first
match returned), the pair `((w + (N-1)*overlap)/N, N)`; when no `N` in
`1..5` satisfies the bound it returns `None`; and for `w ≤ roll` it
returns `(w, 1)`. -/
theorem tile_width_only_spec (w roll ov : ℚ) :
    (∀ s n, tile_width_only w roll ov = some (s, n) →
      1 ≤ n ∧ n ≤ 5 ∧ fitsN w roll ov n ∧
        (∀ m : ℕ, 1 ≤ m → m < n → ¬ fitsN w roll ov m) ∧ s = stripW w ov n) ∧
    ((∀ n : ℕ, 1 ≤ n → n ≤ 5 → ¬ fitsN w roll ov n) →
      tile_width_only w roll ov = none) ∧
    (w ≤ roll → tile_width_only w roll ov = some (w, 1)) :=
  ⟨fun s n h => tile_some_char w roll ov s n h,
   fun hall => (tile_none_char w roll ov).2 hall,
   fun h => tile_single w roll ov h⟩

/-- Witness for C1: at `w = 100 ≤ roll = 137` the tiler returns `(100, 1)`. -/
theorem tile_width_only_spec_witness :
    (100 : ℚ) ≤ 137 ∧ tile_width_only 100 137 1 = some (100, 1) :=
  ⟨by norm_num, (tile_width_only_spec 100 137 1).2.2 (by norm_num)⟩

/-- C8: the tile count chosen by `tile_width_only` is monotone in the
overlap: if `(s1, n1)` is chosen at overlap `o1` and `(s2, n2)` at
`o2 ≥ o1`, then `n1 ≤ n2`. -/
theorem tile_count_monotone (w roll o1 o2 s1 s2 : ℚ) (n1 n2 : ℕ)
    (h1 : tile_width_only w roll o1 = some (s1, n1))
    (h2 : tile_width_only w roll o2 = some (s2, n2))
    (h12 : o1 ≤ o2) : n1 ≤ n2 := by
  obtain ⟨hn1a, _, _, hmin, _⟩ := tile_some_char w roll o1 s1 n1 h1
  obtain ⟨hn2a, hn2b, hfit2, _, _⟩ := tile_some_char w roll o2 s2 n2 h2
  by_contra hlt
  push_neg at hlt
  have hcast : (1 : ℚ) ≤ (n2 : ℚ) := by exact_mod_cast hn2a
  have hfit1 : fitsN w roll o1 n2 := by
    unfold fitsN at hfit2 ⊢
    have hmul : ((n2 : ℚ) - 1) * o1 ≤ ((n2 : ℚ) - 1) * o2 :=
      mul_le_mul_of_nonneg_left h12 (by linarith)
    linarith
  exact hmin n2 hn2a hlt hfit1

lemma tile_eval_ov0 : tile_width_only 200 137 0 = some (100, 2) := by
  rw [tile_eq_ite]
  norm_num [fitsN, stripW]

lemma tile_eval_ov80 : tile_width_only 200 137 80 = some (120, 3) := by
  rw [tile_eq_ite]
  norm_num [fitsN, stripW]

/-- Witness for C8: at `w = 200`, `roll = 137` the tiler chooses `N = 2`
for overlap `0` and `N = 3` for overlap `80`, and indeed `2 ≤ 3`. -/
theorem tile_count_monotone_witness :
    tile_width_only 200 137 0 = some (100, 2) ∧
      tile_width_only 200 137 80 = some (120, 3) ∧
      (0 : ℚ) ≤ 80 ∧ (2 : ℕ) ≤ 3 :=
  ⟨tile_eval_ov0, tile_eval_ov80, by norm_num,
   tile_count_monotone 200 137 0 80 100 120 2 3 tile_eval_ov0 tile_eval_ov80 (by norm_num)⟩

/-! ### Selection-loop lemmas -/

lemma updBest_of_some (b d : Cand) : ∃ e, updBest (some b) d = some e := by
  unfold updBest
  dsimp only
  split_ifs <;> exact ⟨_, rfl⟩

lemma foldl_updBest_some (cs : List Cand) :
    ∀ (acc : Option Cand) (c : Cand), cs.foldl updBest acc = some c →
      (acc = some c ∧ ∀ d ∈ cs, candFits d → waste c ≤ waste d) ∨
      (∃ l1 l2, cs = l1 ++ c :: l2 ∧ candFits c ∧
        (∀ d ∈ l1, candFits d → waste c < waste d) ∧
        (∀ d ∈ l2, candFits d → waste c ≤ waste d) ∧
        (∀ b, acc = some b → waste c < waste b)) := by
  induction cs with
  | nil =>
    intro acc c h
    exact Or.inl ⟨h, by simp⟩
  | cons d cs ih =>
    intro acc c h
    rw [List.foldl_cons] at h
    by_cases hf : candFits d
    · cases acc with
      | none =>
        have hx : updBest none d = some d := by simp [updBest, hf]
        rw [hx] at h
        rcases ih (some d) c h with ⟨h1, h2⟩ | ⟨l1, l2, hsplit, hcf, hl1, hl2, hacc⟩
        · injection h1 with h1
          subst h1
          refine Or.inr ⟨[], cs, by simp, hf, by simp, h2, by simp⟩
        · refine Or.inr ⟨d :: l1, l2, by rw [hsplit, List.cons_append], hcf, ?_, hl2, by simp⟩
          intro e he hfe
          rcases List.mem_cons.1 he with rfl | he'
          · exact hacc e rfl
          · exact hl1 e he' hfe
      | some b =>
        by_cases hw : waste d < waste b
        · have hx : updBest (some b) d = some d := by simp [updBest, hf, hw]
          rw [hx] at h
          rcases ih (some d) c h with ⟨h1, h2⟩ | ⟨l1, l2, hsplit, hcf, hl1, hl2, hacc⟩
          · injection h1 with h1
            subst h1
            refine Or.inr ⟨[], cs, by simp, hf, by simp, h2, ?_⟩
            intro b' hb'
            injection hb' with hb'
            subst hb'
            exact hw
          · refine Or.inr ⟨d :: l1, l2, by rw [hsplit, List.cons_append], hcf, ?_, hl2, ?_⟩
            · intro e he hfe
              rcases List.mem_cons.1 he with rfl | he'
              · exact hacc e rfl
              · exact hl1 e he' hfe
            · intro b' hb'
              injection hb' with hb'
              subst hb'
              exact lt_trans (hacc d rfl) hw
        · have hx : updBest (some b) d = some b := by simp [updBest, hf, hw]
          rw [hx] at h
          rcases ih (some b) c h with ⟨h1, h2⟩ | ⟨l1, l2, hsplit, hcf, hl1, hl2, hacc⟩
          · injection h1 with h1
            subst h1
            refine Or.inl ⟨rfl, ?_⟩
            intro e he hfe
            rcases List.mem_cons.1 he with rfl | he'
            · exact not_lt.1 hw
            · exact h2 e he' hfe
          · refine Or.inr ⟨d :: l1, l2, by rw [hsplit, List.cons_append], hcf, ?_, hl2, ?_⟩
            · intro e he hfe
              rcases List.mem_cons.1 he with rfl | he'
              · exact lt_of_lt_of_le (hacc b rfl) (not_lt.1 hw)
              · exact hl1 e he' hfe
            · intro b' hb'
              injection hb' with hb'
              subst hb'
              exact hacc _ rfl
    · have hx : updBest acc d = acc := by simp [updBest, hf]
      rw [hx] at h
      rcases ih acc c h with ⟨h1, h2⟩ | ⟨l1, l2, hsplit, hcf, hl1, hl2, hacc⟩
      · refine Or.inl ⟨h1, ?_⟩
        intro e he hfe
        rcases List.mem_cons.1 he with rfl | he'
        · exact absurd hfe hf
        · exact h2 e he' hfe
      · refine Or.inr ⟨d :: l1, l2, by rw [hsplit, List.cons_append], hcf, ?_, hl2, hacc⟩
        intro e he hfe
        rcases List.mem_cons.1 he with rfl | he'
        · exact absurd hfe hf
        · exact hl1 e he' hfe

lemma findBest_some_char (cs : List Cand) (c : Cand) (h : findBest cs = some c) :
    ∃ l1 l2, cs = l1 ++ c :: l2 ∧ candFits c ∧
      (∀ d ∈ l1, candFits d → waste c < waste d) ∧
      (∀ d ∈ l2, candFits d → waste c ≤ waste d) := by
  rcases foldl_updBest_some cs none c h with ⟨h1, _⟩ | ⟨l1, l2, ha, hb, hc, hd, _⟩
  · cases h1
  · exact ⟨l1, l2, ha, hb, hc, hd⟩

lemma findBest_some_min (cs : List Cand) (c : Cand) (h : findBest cs = some c) :
    c ∈ cs ∧ candFits c ∧ ∀ d ∈ cs, candFits d → waste c ≤ waste d := by
  obtain ⟨l1, l2, hsplit, hcf, hl1, hl2⟩ := findBest_some_char cs c h
  subst hsplit
  refine ⟨by simp, hcf, ?_⟩
  intro d hd hfd
  rcases List.mem_append.1 hd with hd1 | hd2
  · exact le_of_lt (hl1 d hd1 hfd)
  · rcases List.mem_cons.1 hd2 with rfl | hd3
    · exact le_refl _
    · exact hl2 d hd3 hfd

lemma findBest_none_char (cs : List Cand) :
    ∀ acc, cs.foldl updBest acc = none → acc = none ∧ ∀ d ∈ cs, ¬ candFits d := by
  induction cs with
  | nil => intro acc h; exact ⟨h, by simp⟩
  | cons d cs ih =>
    intro acc h
    rw [List.foldl_cons] at h
    obtain ⟨hacc, hall⟩ := ih _ h
    by_cases hf : candFits d
    · exfalso
      cases acc with
      | none => simp [updBest, hf] at hacc
      | some b =>
        obtain ⟨e, he⟩ := updBest_of_some b d
        rw [he] at hacc
        cases hacc
    · have hx : updBest acc d = acc := by simp [updBest, hf]
      rw [hx] at hacc
      refine ⟨hacc, ?_⟩
      intro e he
      rcases List.mem_cons.1 he with rfl | he'
      · exact hf
      · exact hall e he'

lemma mem_candidates (free : List Rect) (p : Piece) (d : Cand) :
    d ∈ candidates free p ↔ d.rect ∈ free ∧ (d.ow, d.oh) ∈ p.ors := by
  constructor
  · intro h
    simp only [candidates, List.mem_flatMap, List.mem_map] at h
    obtain ⟨f, hf, o, ho, rfl⟩ := h
    exact ⟨hf, ho⟩
  · intro ⟨hf, ho⟩
    simp only [candidates, List.mem_flatMap, List.mem_map]
    exact ⟨d.rect, hf, (d.ow, d.oh), ho, rfl⟩

/-- C2: when a piece is processed, the packer picks the fitting
(free rectangle, orientation) candidate with the smallest waste
`fw*fh - w*h`, keeping the first-found candidate on ties (candidates
scanned free-rectangle-major, orientation 0 before orientation 1); it
removes the chosen rectangle, places the piece at its origin, and appends
the right and bottom splits, each only when both dimensions are strictly
positive. -/
theorem packStep_spec (st : PackSt) (p : Piece) (st' : PackSt)
    (h : packStep st p = some st') :
    ∃ c l1 l2,
      candidates st.free p = l1 ++ c :: l2 ∧
      candFits c ∧
      (∀ d ∈ candidates st.free p, candFits d → waste c ≤ waste d) ∧
      (∀ d ∈ l1, candFits d → waste c < waste d) ∧
      (∀ d ∈ l2, candFits d → waste c ≤ waste d) ∧
      c.rect ∈ st.free ∧ (c.ow, c.oh) ∈ p.ors ∧
      st'.free = appendIf (appendIf (st.free.erase c.rect) (rightRect c)) (bottomRect c) ∧
      st'.placed = st.placed ++ [placeAt p c] := by
  unfold packStep at h
  cases hfb : findBest (candidates st.free p) with
  | none => rw [hfb] at h; cases h
  | some c =>
    rw [hfb] at h
    injection h with h
    obtain ⟨l1, l2, hsplit, hcf, hl1, hl2⟩ := findBest_some_char _ c hfb
    obtain ⟨hmem, _, hmin⟩ := findBest_some_min _ c hfb
    obtain ⟨hrect, hor⟩ := (mem_candidates st.free p c).1 hmem
    exact ⟨c, l1, l2, hsplit, hcf, hmin, hl1, hl2, hrect, hor,
      by rw [← h], by rw [← h]⟩

lemma packStep_eval_example :
    packStep (initSt 10) ⟨2, [(2, 2), (2, 2)]⟩ =
      some ⟨[⟨2, 0, 8, 2⟩, ⟨0, 2, 10, 9998⟩], [⟨2, 0, 0, 2, 2⟩]⟩ := by
  norm_num [packStep, findBest, candidates, updBest, candFits, waste,
    initSt, appendIf, rightRect, bottomRect, placeAt, List.erase]

/-- Witness for C2: the selection property instantiated on the first piece
of a concrete run. -/
theorem packStep_spec_witness :
    packStep (initSt 10) ⟨2, [(2, 2), (2, 2)]⟩ =
      some ⟨[⟨2, 0, 8, 2⟩, ⟨0, 2, 10, 9998⟩], [⟨2, 0, 0, 2, 2⟩]⟩ ∧
    ∃ c l1 l2,
      candidates (initSt 10).free ⟨2, [(2, 2), (2, 2)]⟩ = l1 ++ c :: l2 ∧
      candFits c ∧
      (∀ d ∈ candidates (initSt 10).free ⟨2, [(2, 2), (2, 2)]⟩,
        candFits d → waste c ≤ waste d) ∧
      (∀ d ∈ l1, candFits d → waste c < waste d) ∧
      (∀ d ∈ l2, candFits d → waste c ≤ waste d) ∧
      c.rect ∈ (initSt 10).free ∧ (c.ow, c.oh) ∈ (⟨2, [(2, 2), (2, 2)]⟩ : Piece).ors ∧
      (⟨[⟨2, 0, 8, 2⟩, ⟨0, 2, 10, 9998⟩], [⟨2, 0, 0, 2, 2⟩]⟩ : PackSt).free =
        appendIf (appendIf ((initSt 10).free.erase c.rect) (rightRect c)) (bottomRect c) ∧
      (⟨[⟨2, 0, 8, 2⟩, ⟨0, 2, 10, 9998⟩], [⟨2, 0, 0, 2, 2⟩]⟩ : PackSt).placed =
        (initSt 10).placed ++ [placeAt ⟨2, [(2, 2), (2, 2)]⟩ c] :=
  ⟨packStep_eval_example,
   packStep_spec (initSt 10) ⟨2, [(2, 2), (2, 2)]⟩ _ packStep_eval_example⟩

/-! ### Pack-loop lemmas -/

lemma packStep_parts (st : PackSt) (p : Piece) (st' : PackSt)
    (h : packStep st p = some st') :
    ∃ c, findBest (candidates st.free p) = some c ∧
      st'.free = appendIf (appendIf (st.free.erase c.rect) (rightRect c)) (bottomRect c) ∧
      st'.placed = st.placed ++ [placeAt p c] := by
  unfold packStep at h
  cases hfb : findBest (candidates st.free p) with
  | none => rw [hfb] at h; cases h
  | some c =>
    rw [hfb] at h
    injection h with h
    exact ⟨c, rfl, by rw [← h], by rw [← h]⟩

lemma packGo_nil (st : PackSt) : packGo st [] = some st := rfl

lemma packGo_cons (st : PackSt) (p : Piece) (ps : List Piece) :
    packGo st (p :: ps) = (packStep st p).bind fun st2 => packGo st2 ps := by
  cases hs : packStep st p <;> simp [packGo, List.foldlM_cons, hs]

lemma packGo_placed_map (ps : List Piece) :
    ∀ st st', packGo st ps = some st' →
      st'.placed.map Placed.pid = st.placed.map Placed.pid ++ ps.map Piece.pid := by
  induction ps with
  | nil =>
    intro st st' h
    rw [packGo_nil] at h
    injection h with h
    subst h
    simp
  | cons p ps ih =>
    intro st st' h
    rw [packGo_cons] at h
    cases hs : packStep st p with
    | none => rw [hs] at h; cases h
    | some st2 =>
      rw [hs, Option.some_bind] at h
      obtain ⟨c, _, _, hplaced⟩ := packStep_parts st p st2 hs
      rw [ih st2 st' h, hplaced]
      simp [placeAt]

lemma packGo_none_char (ps : List Piece) :
    ∀ st, packGo st ps = none →
      ∃ n, ∃ h : n < ps.length, ∃ st1,
        packGo st (ps.take n) = some st1 ∧
        findBest (candidates st1.free (ps.get ⟨n, h⟩)) = none := by
  induction ps with
  | nil =>
    intro st h
    rw [packGo_nil] at h
    cases h
  | cons p ps ih =>
    intro st h
    rw [packGo_cons] at h
    cases hs : packStep st p with
    | none =>
      refine ⟨0, by simp, st, by simp [packGo_nil], ?_⟩
      unfold packStep at hs
      cases hfb : findBest (candidates st.free p) with
      | none => exact hfb
      | some c => rw [hfb] at hs; cases hs
    | some st2 =>
      rw [hs, Option.some_bind] at h
      obtain ⟨n, hn, st1, hgo, hfb⟩ := ih st2 h
      refine ⟨n + 1, by simpa using Nat.succ_lt_succ hn, st1, ?_, ?_⟩
      · rw [List.take_succ_cons, packGo_cons, hs, Option.some_bind]
        exact hgo
      · simpa using hfb

lemma mem_appendIf {l : List Rect} {r s : Rect} (h : s ∈ appendIf l r) :
    s ∈ l ∨ (s = r ∧ 0 < r.w ∧ 0 < r.h) := by
  unfold appendIf at h
  split_ifs at h with hc
  · rcases List.mem_append.1 h with h1 | h2
    · exact Or.inl h1
    · exact Or.inr ⟨List.mem_singleton.1 h2, hc⟩
  · exact Or.inl h

/-- Everything currently tracked (free rectangles and placements) stays
below the `y + h = 10000` sentinel line. -/
def ybounded (st : PackSt) : Prop :=
  (∀ r ∈ st.free, r.y + r.h ≤ 10000) ∧ (∀ q ∈ st.placed, q.y + q.h ≤ 10000)

lemma packStep_ybounded {st st' : PackSt} {p : Piece}
    (hinv : ybounded st) (h : packStep st p = some st') : ybounded st' := by
  obtain ⟨c, hfb, hfree, hplaced⟩ := packStep_parts st p st' h
  obtain ⟨hmem, hfits, _⟩ := findBest_some_min _ c hfb
  obtain ⟨hrect, _⟩ := (mem_candidates st.free p c).1 hmem
  have hcrect : c.rect.y + c.rect.h ≤ 10000 := hinv.1 c.rect hrect
  have hoh : c.oh ≤ c.rect.h := hfits.2
  constructor
  · intro r hr
    rw [hfree] at hr
    rcases mem_appendIf hr with hr1 | ⟨rfl, _⟩
    · rcases mem_appendIf hr1 with hr2 | ⟨rfl, _⟩
      · exact hinv.1 r (List.mem_of_mem_erase hr2)
      · simpa [rightRect] using by linarith
    · simpa [bottomRect] using by linarith
  · intro q hq
    rw [hplaced] at hq
    rcases List.mem_append.1 hq with hq1 | hq2
    · exact hinv.2 q hq1
    · rw [List.mem_singleton.1 hq2]
      simpa [placeAt] using by linarith

lemma packGo_ybounded (ps : List Piece) :
    ∀ st st', ybounded st → packGo st ps = some st' → ybounded st' := by
  induction ps with
  | nil =>
    intro st st' hinv h
    rw [packGo_nil] at h
    injection h with h
    subst h
    exact hinv
  | cons p ps ih =>
    intro st st' hinv h
    rw [packGo_cons] at h
    cases hs : packStep st p with
    | none => rw [hs] at h; cases h
    | some st2 =>
      rw [hs, Option.some_bind] at h
      exact ih st2 st' (packStep_ybounded hinv hs) h

lemma foldl_max_le {l : List Placed} {m : ℚ} (hm : m ≤ 10000)
    (hl : ∀ r ∈ l, r.y + r.h ≤ 10000) :
    l.foldl (fun a r => max a (r.y + r.h)) m ≤ 10000 := by
  induction l generalizing m with
  | nil => exact hm
  | cons r l ih =>
    rw [List.foldl_cons]
    exact ih (max_le hm (hl r (List.mem_cons_self r l)))
      fun s hs => hl s (List.mem_cons_of_mem r hs)

/-! ### C5 and C9 -/

/-- C5: `pack` either succeeds with exactly one placement per input piece
(the placed panel ids are exactly the input panel ids, in order), or the
whole attempt returns `None` because the piece reached at some position
has no fitting (free rectangle, orientation) candidate — no partial
layout is ever returned. -/
theorem pack_all_or_nothing (roll : ℚ) (ps : List Piece) :
    (∀ placed, pack roll ps = some placed →
      placed.map Placed.pid = ps.map Piece.pid) ∧
    (pack roll ps = none →
      ∃ n, ∃ h : n < ps.length, ∃ st1,
        packGo (initSt roll) (ps.take n) = some st1 ∧
        findBest (candidates st1.free (ps.get ⟨n, h⟩)) = none) := by
  constructor
  · intro placed h
    unfold pack at h
    cases hg : packGo (initSt roll) ps with
    | none => rw [hg] at h; cases h
    | some st' =>
      rw [hg] at h
      injection h with h
      rw [← h]
      simpa [initSt] using packGo_placed_map ps (initSt roll) st' hg
  · intro h
    unfold pack at h
    cases hg : packGo (initSt roll) ps with
    | none => exact packGo_none_char ps (initSt roll) hg
    | some st' => rw [hg] at h; cases h

lemma pack_eval_example :
    pack 10 [⟨2, [(2, 2), (2, 2)]⟩] = some [⟨2, 0, 0, 2, 2⟩] := by
  norm_num [pack, packGo, packStep, findBest, candidates, updBest, candFits,
    waste, initSt, appendIf, rightRect, bottomRect, placeAt, List.foldlM,
    List.erase_cons]

/-- Witness for C5: a concrete successful pack places exactly the input
panel ids. -/
theorem pack_all_or_nothing_witness :
    pack 10 [⟨2, [(2, 2), (2, 2)]⟩] = some [⟨2, 0, 0, 2, 2⟩] ∧
      ([⟨2, 0, 0, 2, 2⟩] : List Placed).map Placed.pid =
        ([⟨2, [(2, 2), (2, 2)]⟩] : List Piece).map Piece.pid :=
  ⟨pack_eval_example,
   (pack_all_or_nothing 10 [⟨2, [(2, 2), (2, 2)]⟩]).1 _ pack_eval_example⟩

lemma pack_none_oversized :
    pack 137 [⟨1, [(1, 20000), (20000, 1)]⟩] = none := by
  norm_num [pack, packGo, packStep, findBest, candidates, updBest, candFits,
    waste, initSt, appendIf, rightRect, bottomRect, placeAt, List.foldlM,
    List.erase_cons]

/-- C9: the working area of `pack` is bounded in length by the 10000
sentinel of the initial free rectangle: every returned layout has
`layoutLength ≤ 10000`, and a piece of height 20000 (which fits the
width 137 of the roll in its first orientation, `1 ≤ 137`) cannot be
packed at all. -/
theorem pack_sentinel_bound :
    (∀ (roll : ℚ) (ps : List Piece) (placed : List Placed) (l : ℚ),
      pack roll ps = some placed → layoutLength placed = some l → l ≤ 10000) ∧
    pack 137 [⟨1, [(1, 20000), (20000, 1)]⟩] = none ∧ (1 : ℚ) ≤ 137 := by
  refine ⟨?_, pack_none_oversized, by norm_num⟩
  intro roll ps placed l hp hl
  unfold pack at hp
  cases hg : packGo (initSt roll) ps with
  | none => rw [hg] at hp; cases hp
  | some st' =>
    rw [hg] at hp
    injection hp with hp
    have hinv : ybounded st' := by
      refine packGo_ybounded ps (initSt roll) st' ⟨?_, ?_⟩ hg
      · intro r hr
        rw [List.mem_singleton.1 hr]
        norm_num
      · intro q hq
        cases hq
    cases placed with
    | nil => cases hl
    | cons q rest =>
      injection hl with hl
      rw [← hl]
      have hall : ∀ r ∈ q :: rest, r.y + r.h ≤ 10000 := by
        rw [← hp]
        exact hinv.2
      exact foldl_max_le (hall q (List.mem_cons_self q rest))
        fun r hr => hall r (List.mem_cons_of_mem q hr)

/-- Witness for C9: the bound instantiated on a concrete successful pack. -/
theorem pack_sentinel_bound_witness :
    pack 10 [⟨2, [(2, 2), (2, 2)]⟩] = some [⟨2, 0, 0, 2, 2⟩] ∧
      layoutLength [⟨2, 0, 0, 2, 2⟩] = some 2 ∧ (2 : ℚ) ≤ 10000 :=
  ⟨pack_eval_example, by norm_num [layoutLength],
   pack_sentinel_bound.1 10 _ _ 2 pack_eval_example (by norm_num [layoutLength])⟩

/-! ### C6: demand expansion -/

/-- The pieces a single job contributes when its width tiles. -/
def jobPieces (roll ov : ℚ) (j : ℕ × ℚ × ℚ × ℕ) : List Piece :=
  match tile_width_only j.2.1 roll ov with
  | none => []
  | some (tw, n) =>
    List.replicate (j.2.2.2 * n) ⟨j.1, [(tw, j.2.2.1), (j.2.2.1, tw)]⟩

/-- C6: `expand` fails as a whole exactly when some demand's width cannot
be tiled (no partial piece list); on success it emits, per job in order,
exactly `quantity * tileCount` pieces, each carrying both orientation
options `(stripWidth, height)` and `(height, stripWidth)`. -/
theorem expand_spec (roll ov : ℚ) (jobs : List (ℕ × ℚ × ℚ × ℕ)) :
    (expand roll ov jobs = none ↔
      ∃ j ∈ jobs, tile_width_only j.2.1 roll ov = none) ∧
    (∀ ps, expand roll ov jobs = some ps →
      ps = jobs.flatMap (jobPieces roll ov)) := by
  induction jobs with
  | nil =>
    constructor
    · simp [expand]
    · intro ps h
      injection h with h
      simp [← h]
  | cons j rest ih =>
    obtain ⟨pid, w, h, q⟩ := j
    constructor
    · cases ht : tile_width_only w roll ov with
      | none =>
        refine iff_of_true (by simp [expand, ht]) ⟨(pid, w, h, q), by simp, ht⟩
      | some v =>
        obtain ⟨tw, n⟩ := v
        cases he : expand roll ov rest with
        | none =>
          refine iff_of_true (by simp [expand, ht, he]) ?_
          obtain ⟨j', hj', ht'⟩ := (ih.1).1 he
          exact ⟨j', List.mem_cons_of_mem _ hj', ht'⟩
        | some more =>
          refine iff_of_false (by simp [expand, ht, he]) ?_
          rintro ⟨j', hj', ht'⟩
          rcases List.mem_cons.1 hj' with rfl | hj''
          · rw [ht] at ht'; cases ht'
          · rw [(ih.1).2 ⟨j', hj'', ht'⟩] at he; cases he
    · intro ps hps
      cases ht : tile_width_only w roll ov with
      | none => simp [expand, ht] at hps
      | some v =>
        obtain ⟨tw, n⟩ := v
        cases he : expand roll ov rest with
        | none => simp [expand, ht, he] at hps
        | some more =>
          have hmore : more = rest.flatMap (jobPieces roll ov) := ih.2 more he
          simp only [expand, ht, he, Option.some.injEq] at hps
          rw [← hps, List.flatMap_cons, hmore, jobPieces, ht]

lemma expand_eval_example :
    expand 137 1 [(1, 50, 60, 2)] =
      some [⟨1, [(50, 60), (60, 50)]⟩, ⟨1, [(50, 60), (60, 50)]⟩] := by
  have ht : tile_width_only 50 137 1 = some (50, 1) :=
    tile_single 50 137 1 (by norm_num)
  simp [expand, ht, List.replicate]

/-- Witness for C6: one job of quantity 2 and tile count 1 expands to
exactly 2 pieces, each with both orientations. -/
theorem expand_spec_witness :
    expand 137 1 [(1, 50, 60, 2)] =
      some [⟨1, [(50, 60), (60, 50)]⟩, ⟨1, [(50, 60), (60, 50)]⟩] ∧
    ([⟨1, [(50, 60), (60, 50)]⟩, ⟨1, [(50, 60), (60, 50)]⟩] : List Piece) =
      [((1 : ℕ), (50 : ℚ), (60 : ℚ), (2 : ℕ))].flatMap (jobPieces 137 1) :=
  ⟨expand_eval_example, (expand_spec 137 1 _).2 _ expand_eval_example⟩

/-! ### C7: the empty demand list -/

/-- C7 (divergence from the spec): on the empty demand list, `expand`
yields the empty piece list and `pack` the empty layout, but `optimize`
returns `(None, None)` — the failure result — rather than an empty layout
of length 0, because the empty layout is falsy under `if layout:` and
never becomes the best. -/
theorem optimize_empty_demands :
    expand 137 1 [] = some [] ∧ pack 137 [] = some [] ∧
      optimize 137 [[], [], []] = (none, none) :=
  ⟨rfl, rfl, rfl⟩

/-! ### C10: in-place shuffling of the caller's list -/

lemma shuffleRun_fst (roll : ℚ) (shuffles : List (List Piece)) :
    ∀ (acc : Option (List Placed) × Option ℚ) (cur : List Piece),
      (shuffles.foldl (fun st o => (passUpdate st.1 (pack roll o), o)) (acc, cur)).1 =
        shuffles.foldl (fun a o => passUpdate a (pack roll o)) acc := by
  induction shuffles with
  | nil => intro acc cur; rfl
  | cons o rest ih => intro acc cur; exact ih _ o

lemma shuffleRun_snd (roll : ℚ) (shuffles : List (List Piece)) :
    ∀ (acc : Option (List Placed) × Option ℚ) (cur : List Piece),
      (shuffles.foldl (fun st o => (passUpdate st.1 (pack roll o), o)) (acc, cur)).2 =
        shuffles.getLastD cur := by
  induction shuffles with
  | nil => intro acc cur; rfl
  | cons o rest ih =>
    intro acc cur
    rw [List.foldl_cons, List.getLastD_cons]
    exact ih _ o

lemma getLastD_perm (shuffles : List (List Piece)) :
    ∀ cur pieces : List Piece, cur.Perm pieces →
      (∀ o ∈ shuffles, o.Perm pieces) → (shuffles.getLastD cur).Perm pieces := by
  induction shuffles with
  | nil => intro cur pieces hc _; exact hc
  | cons o rest ih =>
    intro cur pieces _ hall
    rw [List.getLastD_cons]
    exact ih o pieces (hall o (List.mem_cons_self o rest))
      fun o' ho' => hall o' (List.mem_cons_of_mem o ho')

/-- C10: with the in-place shuffles made explicit, after the run the
caller's piece list holds the last shuffle (a permutation of the original
contents whenever every shuffle is one), and in general differs from the
original order, while the returned optimization result is exactly
`optimize` — the packer only reads the shuffled orders. -/
theorem shuffleRun_mutates_input (roll : ℚ) (pieces : List Piece)
    (shuffles : List (List Piece)) :
    (shuffleRun roll pieces shuffles).2 = shuffles.getLastD pieces ∧
    ((∀ o ∈ shuffles, o.Perm pieces) →
      ((shuffleRun roll pieces shuffles).2).Perm pieces) ∧
    (shuffleRun roll pieces shuffles).1 = optimize roll shuffles ∧
    (shuffleRun 10 [⟨1, []⟩, ⟨2, []⟩] [[⟨2, []⟩, ⟨1, []⟩]]).2 ≠
      [⟨1, []⟩, ⟨2, []⟩] := by
  have hsnd : ∀ (r : ℚ) (pcs : List Piece) (sh : List (List Piece)),
      (shuffleRun r pcs sh).2 = sh.getLastD pcs := by
    intro r pcs sh
    unfold shuffleRun
    exact shuffleRun_snd r sh _ pcs
  refine ⟨hsnd roll pieces shuffles, ?_, ?_, ?_⟩
  · intro hall
    rw [hsnd roll pieces shuffles]
    exact getLastD_perm shuffles pieces pieces (List.Perm.refl pieces) hall
  · unfold shuffleRun optimize
    exact shuffleRun_fst roll shuffles _ pieces
  · rw [hsnd 10 _ _]
    decide

/-- Witness for C10: a concrete shuffle sequence leaves the list holding a
permutation of the original pieces. -/
theorem shuffleRun_mutates_input_witness :
    (∀ o ∈ ([[⟨2, []⟩, ⟨1, []⟩]] : List (List Piece)),
        List.Perm o [⟨1, []⟩, ⟨2, []⟩]) ∧
      ((shuffleRun 10 ([⟨1, []⟩, ⟨2, []⟩] : List Piece)
          [[⟨2, []⟩, ⟨1, []⟩]]).2).Perm [⟨1, []⟩, ⟨2, []⟩] :=
  ⟨by decide,
   (shuffleRun_mutates_input 10 ([⟨1, []⟩, ⟨2, []⟩] : List Piece)
     [[⟨2, []⟩, ⟨1, []⟩]]).2.1 (by decide)⟩

/-! ### C3: the multi-pass search driver -/

lemma passUpdate_skip (acc : Option (List Placed) × Option ℚ)
    (res : Option (List Placed)) (h : res.bind layoutLength = none) :
    passUpdate acc res = acc := by
  cases res with
  | none => rfl
  | some layout =>
    cases layout with
    | nil => rfl
    | cons q rest => rw [Option.some_bind] at h; cases h

lemma passUpdate_hit (acc : Option (List Placed) × Option ℚ)
    (res : Option (List Placed)) (l : ℚ) (h : res.bind layoutLength = some l) :
    (acc.2 = none → ∃ layout, res = some layout ∧ passUpdate acc res = (some layout, some l)) ∧
    (∀ b, acc.2 = some b →
      ((b = 0 ∨ l < b) → ∃ layout, res = some layout ∧ passUpdate acc res = (some layout, some l)) ∧
      (¬(b = 0 ∨ l < b) → passUpdate acc res = acc)) := by
  cases res with
  | none => cases h
  | some layout =>
    cases layout with
    | nil => cases h
    | cons q rest =>
      rw [Option.some_bind] at h
      injection h with h
      obtain ⟨a1, a2⟩ := acc
      constructor
      · intro h2
        cases a2 with
        | none => exact ⟨q :: rest, rfl, by simp only [passUpdate, h]⟩
        | some b => cases h2
      · intro b hb
        cases a2 with
        | none => cases hb
        | some b' =>
          injection hb with hb
          subst hb
          constructor
          · intro hg
            exact ⟨q :: rest, rfl, by simp only [passUpdate, h, if_pos hg]⟩
          · intro hg
            simp only [passUpdate, h, if_neg hg]

lemma successLens_nil (roll : ℚ) : successLens roll [] = [] := rfl

lemma successLens_cons_none (roll : ℚ) (o : List Piece) (orders : List (List Piece))
    (h : (pack roll o).bind layoutLength = none) :
    successLens roll (o :: orders) = successLens roll orders := by
  simp [successLens, List.filterMap_cons, h]

lemma successLens_cons_some (roll : ℚ) (o : List Piece) (orders : List (List Piece))
    (l : ℚ) (h : (pack roll o).bind layoutLength = some l) :
    successLens roll (o :: orders) = l :: successLens roll orders := by
  simp [successLens, List.filterMap_cons, h]

lemma foldl_passUpdate_inv (roll : ℚ) (orders : List (List Piece)) :
    ∀ acc : Option (List Placed) × Option ℚ,
      (∀ b, acc.2 = some b → b ≠ 0) →
      (∀ l ∈ successLens roll orders, l ≠ 0) →
      (successLens roll orders = [] →
        orders.foldl (fun a o => passUpdate a (pack roll o)) acc = acc) ∧
      (∀ x, (orders.foldl (fun a o => passUpdate a (pack roll o)) acc).2 = some x →
        (x ∈ successLens roll orders ∧ (∀ l ∈ successLens roll orders, x ≤ l) ∧
          (∀ b, acc.2 = some b → x ≤ b)) ∨
        (acc.2 = some x ∧ ∀ l ∈ successLens roll orders, x ≤ l)) ∧
      ((orders.foldl (fun a o => passUpdate a (pack roll o)) acc).2 = none →
        acc.2 = none ∧ successLens roll orders = []) := by
  induction orders with
  | nil =>
    intro acc hacc hz
    refine ⟨fun _ => rfl, ?_, fun h => ⟨h, rfl⟩⟩
    intro x hx
    exact Or.inr ⟨hx, by simp [successLens_nil]⟩
  | cons o rest ih =>
    intro acc hacc hz
    rw [List.foldl_cons]
    cases hpl : (pack roll o).bind layoutLength with
    | none =>
      rw [passUpdate_skip acc _ hpl]
      have hlens := successLens_cons_none roll o rest hpl
      rw [hlens] at hz ⊢
      exact ih acc hacc hz
    | some l =>
      have hlens := successLens_cons_some roll o rest l hpl
      have hl0 : l ≠ 0 := by
        apply hz
        rw [hlens]
        exact List.mem_cons_self l _
      have hzrest : ∀ l' ∈ successLens roll rest, l' ≠ 0 := by
        intro l' hl'
        apply hz
        rw [hlens]
        exact List.mem_cons_of_mem l hl'
      obtain ⟨a1, a2⟩ := acc
      cases a2 with
      | none =>
        obtain ⟨layout, hres, hupd⟩ := (passUpdate_hit (a1, none) _ l hpl).1 rfl
        rw [hupd]
        have hacc' : ∀ b, ((some layout, some l) :
            Option (List Placed) × Option ℚ).2 = some b → b ≠ 0 := by
          intro b hb
          injection hb with hb
          subst hb
          exact hl0
        obtain ⟨ih1, ih2, ih3⟩ := ih (some layout, some l) hacc' hzrest
        refine ⟨?_, ?_, ?_⟩
        · intro habs
          rw [hlens] at habs
          cases habs
        · intro x hx
          rcases ih2 x hx with ⟨hmem, hmin, hbound⟩ | ⟨hax, hmin⟩
          · refine Or.inl ⟨by rw [hlens]; exact List.mem_cons_of_mem l hmem, ?_,
              fun b hb => by cases hb⟩
            intro l' hl'
            rw [hlens] at hl'
            rcases List.mem_cons.1 hl' with rfl | hl''
            · exact hbound l' rfl
            · exact hmin l' hl''
          · injection hax with hax
            subst hax
            refine Or.inl ⟨by rw [hlens]; exact List.mem_cons_self _ _, ?_,
              fun b hb => by cases hb⟩
            intro l' hl'
            rw [hlens] at hl'
            rcases List.mem_cons.1 hl' with rfl | hl''
            · exact le_refl l'
            · exact hmin l' hl''
        · intro hx
          obtain ⟨habs, _⟩ := ih3 hx
          cases habs
      | some b =>
        have hb0 : b ≠ 0 := hacc b rfl
        by_cases hlt : l < b
        · obtain ⟨layout, hres, hupd⟩ :=
            ((passUpdate_hit (a1, some b) _ l hpl).2 b rfl).1 (Or.inr hlt)
          rw [hupd]
          have hacc' : ∀ b', ((some layout, some l) :
              Option (List Placed) × Option ℚ).2 = some b' → b' ≠ 0 := by
            intro b' hb'
            injection hb' with hb'
            subst hb'
            exact hl0
          obtain ⟨ih1, ih2, ih3⟩ := ih (some layout, some l) hacc' hzrest
          refine ⟨?_, ?_, ?_⟩
          · intro habs
            rw [hlens] at habs
            cases habs
          · intro x hx
            rcases ih2 x hx with ⟨hmem, hmin, hbound⟩ | ⟨hax, hmin⟩
            · refine Or.inl ⟨by rw [hlens]; exact List.mem_cons_of_mem l hmem, ?_, ?_⟩
              · intro l' hl'
                rw [hlens] at hl'
                rcases List.mem_cons.1 hl' with rfl | hl''
                · exact hbound l' rfl
                · exact hmin l' hl''
              · intro b' hb'
                injection hb' with hb'
                subst hb'
                exact le_of_lt (lt_of_le_of_lt (hbound l rfl) hlt)
            · injection hax with hax
              subst hax
              refine Or.inl ⟨by rw [hlens]; exact List.mem_cons_self _ _, ?_, ?_⟩
              · intro l' hl'
                rw [hlens] at hl'
                rcases List.mem_cons.1 hl' with rfl | hl''
                · exact le_refl l'
                · exact hmin l' hl''
              · intro b' hb'
                injection hb' with hb'
                subst hb'
                exact le_of_lt hlt
          · intro hx
            obtain ⟨habs, _⟩ := ih3 hx
            cases habs
        · have hng : ¬(b = 0 ∨ l < b) := by
            rintro (h0 | hl')
            · exact hb0 h0
            · exact hlt hl'
          rw [((passUpdate_hit (a1, some b) _ l hpl).2 b rfl).2 hng]
          have hble : b ≤ l := not_lt.1 hlt
          obtain ⟨ih1, ih2, ih3⟩ := ih (a1, some b) hacc hzrest
          refine ⟨?_, ?_, ?_⟩
          · intro habs
            rw [hlens] at habs
            cases habs
          · intro x hx
            rcases ih2 x hx with ⟨hmem, hmin, hbound⟩ | ⟨hax, hmin⟩
            · refine Or.inl ⟨by rw [hlens]; exact List.mem_cons_of_mem l hmem, ?_, hbound⟩
              intro l' hl'
              rw [hlens] at hl'
              rcases List.mem_cons.1 hl' with rfl | hl''
              · exact le_trans (hbound b rfl) hble
              · exact hmin l' hl''
            · injection hax with hax
              subst hax
              refine Or.inr ⟨rfl, ?_⟩
              intro l' hl'
              rw [hlens] at hl'
              rcases List.mem_cons.1 hl' with rfl | hl''
              · exact hble
              · exact hmin l' hl''
          · intro hx
            obtain ⟨habs, _⟩ := ih3 hx
            cases habs

/-- C3 (amended): provided no considered pass has layout length 0 (Python
treats a best length of 0 as falsy/unset, so a later pass would overwrite
it), `optimize` returns `(None, None)` when every pass is discarded, and
otherwise its returned best length is exactly the minimum layout length
over the successful passes. -/
theorem optimize_best_is_min (roll : ℚ) (orders : List (List Piece))
    (hz : ∀ l ∈ successLens roll orders, l ≠ 0) :
    (successLens roll orders = [] → optimize roll orders = (none, none)) ∧
    (∀ x, (optimize roll orders).2 = some x →
      x ∈ successLens roll orders ∧ ∀ l ∈ successLens roll orders, x ≤ l) ∧
    (successLens roll orders ≠ [] → (optimize roll orders).2 ≠ none) := by
  have hacc : ∀ b, ((none, none) : Option (List Placed) × Option ℚ).2 = some b → b ≠ 0 := by
    intro b hb
    cases hb
  obtain ⟨h1, h2, h3⟩ := foldl_passUpdate_inv roll orders (none, none) hacc hz
  refine ⟨h1, ?_, ?_⟩
  · intro x hx
    rcases h2 x hx with ⟨hmem, hmin, _⟩ | ⟨hax, _⟩
    · exact ⟨hmem, hmin⟩
    · cases hax
  · intro hne hx
    exact hne (h3 hx).2

lemma successLens_eval_example : successLens 10 [[⟨2, [(2, 2), (2, 2)]⟩]] = [2] := by
  have h : (pack 10 [⟨2, [(2, 2), (2, 2)]⟩]).bind layoutLength = some 2 := by
    rw [pack_eval_example]
    norm_num [layoutLength]
  simp [successLens, List.filterMap_cons, h]

lemma optimize_eval_example :
    optimize 10 [[⟨2, [(2, 2), (2, 2)]⟩]] = (some [⟨2, 0, 0, 2, 2⟩], some 2) := by
  simp only [optimize, List.foldl_cons, List.foldl_nil, pack_eval_example]
  norm_num [passUpdate]

/-- Witness for C3: a single successful pass of length 2 (no zero-length
successes), and the returned best length 2 is the minimum. -/
theorem optimize_best_is_min_witness :
    (∀ l ∈ successLens 10 ([[⟨2, [(2, 2), (2, 2)]⟩]] : List (List Piece)), l ≠ 0) ∧
      (2 : ℚ) ∈ successLens 10 ([[⟨2, [(2, 2), (2, 2)]⟩]] : List (List Piece)) ∧
      ∀ l ∈ successLens 10 ([[⟨2, [(2, 2), (2, 2)]⟩]] : List (List Piece)), (2 : ℚ) ≤ l := by
  have hz : ∀ l ∈ successLens 10 ([[⟨2, [(2, 2), (2, 2)]⟩]] : List (List Piece)), l ≠ 0 := by
    rw [successLens_eval_example]
    intro l hl
    rw [List.mem_singleton.1 hl]
    norm_num
  exact ⟨hz, (optimize_best_is_min 10 [[⟨2, [(2, 2), (2, 2)]⟩]] hz).2.1 2
    (by rw [optimize_eval_example])⟩

lemma c3_pack_order1 :
    pack 10 [⟨1, [(6, 0), (0, 6)]⟩, ⟨2, [(4, -2), (-2, 4)]⟩,
             ⟨3, [(5, 2), (2, 5)]⟩, ⟨4, [(5, 0), (2, 3)]⟩] =
      some [⟨1, 0, 0, 6, 0⟩, ⟨2, 0, 0, 4, -2⟩, ⟨3, 0, -2, 5, 2⟩, ⟨4, 5, -2, 5, 0⟩] := by
  norm_num [pack, packGo, packStep, findBest, candidates, updBest, candFits,
    waste, initSt, appendIf, rightRect, bottomRect, placeAt, List.foldlM,
    List.erase_cons]

lemma c3_pack_order2 :
    pack 10 [⟨4, [(5, 0), (2, 3)]⟩, ⟨1, [(6, 0), (0, 6)]⟩,
             ⟨2, [(4, -2), (-2, 4)]⟩, ⟨3, [(5, 2), (2, 5)]⟩] =
      some [⟨4, 0, 0, 2, 3⟩, ⟨1, 2, 0, 6, 0⟩, ⟨2, 2, 0, 4, -2⟩, ⟨3, 2, -2, 5, 2⟩] := by
  norm_num [pack, packGo, packStep, findBest, candidates, updBest, candFits,
    waste, initSt, appendIf, rightRect, bottomRect, placeAt, List.foldlM,
    List.erase_cons]

/-- Counterexample to C3 as stated: two passes over permutations of the
same piece list both pack successfully, with layout lengths 0 and 3, yet
`optimize` returns best length 3, not the minimum 0 — the length-0 best is
falsy in Python (`if not best_len`) and is overwritten by the later,
longer pass. -/
theorem optimize_best_is_min_counterexample :
    (pack 10 [⟨1, [(6, 0), (0, 6)]⟩, ⟨2, [(4, -2), (-2, 4)]⟩,
              ⟨3, [(5, 2), (2, 5)]⟩, ⟨4, [(5, 0), (2, 3)]⟩]).bind layoutLength =
        some 0 ∧
    (pack 10 [⟨4, [(5, 0), (2, 3)]⟩, ⟨1, [(6, 0), (0, 6)]⟩,
              ⟨2, [(4, -2), (-2, 4)]⟩, ⟨3, [(5, 2), (2, 5)]⟩]).bind layoutLength =
        some 3 ∧
    List.Perm
      [(⟨4, [(5, 0), (2, 3)]⟩ : Piece), ⟨1, [(6, 0), (0, 6)]⟩,
       ⟨2, [(4, -2), (-2, 4)]⟩, ⟨3, [(5, 2), (2, 5)]⟩]
      [⟨1, [(6, 0), (0, 6)]⟩, ⟨2, [(4, -2), (-2, 4)]⟩,
       ⟨3, [(5, 2), (2, 5)]⟩, ⟨4, [(5, 0), (2, 3)]⟩] ∧
    (optimize 10
      [[⟨1, [(6, 0), (0, 6)]⟩, ⟨2, [(4, -2), (-2, 4)]⟩,
        ⟨3, [(5, 2), (2, 5)]⟩, ⟨4, [(5, 0), (2, 3)]⟩],
       [⟨4, [(5, 0), (2, 3)]⟩, ⟨1, [(6, 0), (0, 6)]⟩,
        ⟨2, [(4, -2), (-2, 4)]⟩, ⟨3, [(5, 2), (2, 5)]⟩]]).2 = some 3 ∧
    ¬ ((3 : ℚ) ≤ 0) := by
  have h1 : (pack 10 [⟨1, [(6, 0), (0, 6)]⟩, ⟨2, [(4, -2), (-2, 4)]⟩,
      ⟨3, [(5, 2), (2, 5)]⟩, ⟨4, [(5, 0), (2, 3)]⟩]).bind layoutLength = some 0 := by
    rw [c3_pack_order1]
    norm_num [layoutLength]
  have h2 : (pack 10 [⟨4, [(5, 0), (2, 3)]⟩, ⟨1, [(6, 0), (0, 6)]⟩,
      ⟨2, [(4, -2), (-2, 4)]⟩, ⟨3, [(5, 2), (2, 5)]⟩]).bind layoutLength = some 3 := by
    rw [c3_pack_order2]
    norm_num [layoutLength]
  refine ⟨h1, h2, ?_, ?_, by norm_num⟩
  · exact @List.perm_append_comm Piece
      [⟨4, [(5, 0), (2, 3)]⟩]
      [⟨1, [(6, 0), (0, 6)]⟩, ⟨2, [(4, -2), (-2, 4)]⟩, ⟨3, [(5, 2), (2, 5)]⟩]
  · simp only [optimize, List.foldl_cons, List.foldl_nil, c3_pack_order1, c3_pack_order2]
    norm_num [passUpdate]

/-! ### C4: geometry of the placed rectangles -/

/-- The rectangle occupied by a placement. -/
def placedRect (q : Placed) : Rect :=
  ⟨q.x, q.y, q.w, q.h⟩

/-- Two axis-aligned rectangles overlap when their interiors intersect. -/
def overlapR (a b : Rect) : Prop :=
  a.x < b.x + b.w ∧ b.x < a.x + a.w ∧ a.y < b.y + b.h ∧ b.y < a.y + a.h

/-- Interior-disjointness of two rectangles. -/
def disjR (a b : Rect) : Prop :=
  ¬ overlapR a b

/-- `a` is contained in `b`. -/
def subR (a b : Rect) : Prop :=
  b.x ≤ a.x ∧ a.x + a.w ≤ b.x + b.w ∧ b.y ≤ a.y ∧ a.y + a.h ≤ b.y + b.h

lemma disjR_symm {a b : Rect} (h : disjR a b) : disjR b a := by
  intro ⟨h1, h2, h3, h4⟩
  exact h ⟨h2, h1, h4, h3⟩

lemma disjR_of_subR_left {a b c : Rect} (hsub : subR a c) (hd : disjR c b) :
    disjR a b := by
  intro ⟨h1, h2, h3, h4⟩
  obtain ⟨s1, s2, s3, s4⟩ := hsub
  exact hd ⟨by linarith, by linarith, by linarith, by linarith⟩

lemma disjR_of_subR_right {a b c : Rect} (hsub : subR b c) (hd : disjR a c) :
    disjR a b :=
  disjR_symm (disjR_of_subR_left hsub (disjR_symm hd))

lemma erase_rel {α : Type*} [DecidableEq α] {R : α → α → Prop}
    (hsymm : ∀ x y, R x y → R y x) :
    ∀ (l : List α) (a : α), a ∈ l → l.Pairwise R → ∀ b ∈ l.erase a, R a b := by
  intro l
  induction l with
  | nil => intro a ha; cases ha
  | cons x xs ih =>
    intro a ha hp b hb
    by_cases hxa : x = a
    · subst hxa
      rw [List.erase_cons_head] at hb
      exact (List.pairwise_cons.1 hp).1 b hb
    · have hax : a ∈ xs := by
        rcases List.mem_cons.1 ha with rfl | h
        · exact absurd rfl hxa
        · exact h
      rw [List.erase_cons_tail] at hb
      · rcases List.mem_cons.1 hb with rfl | hb'
        · exact hsymm b a ((List.pairwise_cons.1 hp).1 a hax)
        · exact ih a hax (List.pairwise_cons.1 hp).2 b hb'
      · simp [hxa]

lemma pairwise_appendIf {R : Rect → Rect → Prop} {l : List Rect} {r : Rect}
    (hl : l.Pairwise R) (hr : ∀ s ∈ l, R s r) : (appendIf l r).Pairwise R := by
  unfold appendIf
  split_ifs
  · refine List.pairwise_append.2 ⟨hl, by simp, ?_⟩
    intro a ha b hb
    rw [List.mem_singleton.1 hb]
    exact hr a ha
  · exact hl

/-- The geometric invariant of the packer state: all free rectangles and
placements lie inside the roll on the width axis, free rectangles are
pairwise interior-disjoint, free rectangles are disjoint from placements,
and placements are pairwise interior-disjoint. -/
def goodSt (roll : ℚ) (st : PackSt) : Prop :=
  (∀ r ∈ st.free, 0 ≤ r.x ∧ r.x + r.w ≤ roll) ∧
  (∀ q ∈ st.placed, 0 ≤ q.x ∧ q.x + q.w ≤ roll) ∧
  List.Pairwise disjR st.free ∧
  (∀ r ∈ st.free, ∀ q ∈ st.placed, disjR r (placedRect q)) ∧
  List.Pairwise (fun a b => disjR (placedRect a) (placedRect b)) st.placed

lemma packStep_good {roll : ℚ} {st st' : PackSt} {p : Piece}
    (hnn : ∀ o ∈ p.ors, 0 ≤ o.1 ∧ 0 ≤ o.2)
    (hg : goodSt roll st) (h : packStep st p = some st') : goodSt roll st' := by
  obtain ⟨c, hfb, hfree, hplaced⟩ := packStep_parts st p st' h
  obtain ⟨hmem, hfits, _⟩ := findBest_some_min _ c hfb
  obtain ⟨hrect, hor⟩ := (mem_candidates st.free p c).1 hmem
  obtain ⟨how, hoh⟩ := hfits
  obtain ⟨hwnn, hhnn⟩ := hnn (c.ow, c.oh) hor
  obtain ⟨hfb1, hfb2, hfb3, hfb4, hfb5⟩ := hg
  obtain ⟨hbx, hbxw⟩ := hfb1 c.rect hrect
  dsimp only at hwnn hhnn
  have hsub_piece : subR (placedRect (placeAt p c)) c.rect := by
    refine ⟨le_refl _, by simpa [placedRect, placeAt] using by linarith,
      le_refl _, by simpa [placedRect, placeAt] using by linarith⟩
  have hsub_right : subR (rightRect c) c.rect := by
    refine ⟨by simpa [rightRect] using by linarith, ?_, le_refl _, ?_⟩ <;>
      · simp only [rightRect]
        linarith
  have hsub_bottom : subR (bottomRect c) c.rect := by
    refine ⟨le_refl _, ?_, by simpa [bottomRect] using by linarith, ?_⟩ <;>
      · simp only [bottomRect]
        linarith
  have hd_pr : disjR (placedRect (placeAt p c)) (rightRect c) := by
    intro ⟨h1, h2, h3, h4⟩
    simp only [placedRect, placeAt, rightRect] at h2
    linarith
  have hd_pb : disjR (placedRect (placeAt p c)) (bottomRect c) := by
    intro ⟨h1, h2, h3, h4⟩
    simp only [placedRect, placeAt, bottomRect] at h4
    linarith
  have hd_rb : disjR (rightRect c) (bottomRect c) := by
    intro ⟨h1, h2, h3, h4⟩
    simp only [rightRect, bottomRect] at h4
    linarith
  have hchosen_disj : ∀ r ∈ st.free.erase c.rect, disjR c.rect r :=
    erase_rel (fun _ _ => disjR_symm) st.free c.rect hrect hfb3
  have hmem_free' : ∀ r ∈ st'.free,
      r ∈ st.free.erase c.rect ∨ r = rightRect c ∨ r = bottomRect c := by
    intro r hr
    rw [hfree] at hr
    rcases mem_appendIf hr with hr1 | ⟨rfl, _⟩
    · rcases mem_appendIf hr1 with hr2 | ⟨rfl, _⟩
      · exact Or.inl hr2
      · exact Or.inr (Or.inl rfl)
    · exact Or.inr (Or.inr rfl)
  refine ⟨?_, ?_, ?_, ?_, ?_⟩
  · intro r hr
    rcases hmem_free' r hr with hr' | rfl | rfl
    · exact hfb1 r (List.mem_of_mem_erase hr')
    · constructor <;> simp [rightRect] <;> linarith
    · constructor <;> simp [bottomRect] <;> linarith
  · intro q hq
    rw [hplaced] at hq
    rcases List.mem_append.1 hq with hq1 | hq2
    · exact hfb2 q hq1
    · rw [List.mem_singleton.1 hq2]
      constructor <;> simp [placeAt] <;> linarith
  · rw [hfree]
    have hpe : (st.free.erase c.rect).Pairwise disjR :=
      List.Pairwise.sublist (List.erase_sublist c.rect st.free) hfb3
    refine pairwise_appendIf (pairwise_appendIf hpe ?_) ?_
    · intro s hs
      exact disjR_of_subR_right hsub_right (disjR_symm (hchosen_disj s hs))
    · intro s hs
      rcases mem_appendIf hs with hs1 | ⟨rfl, _⟩
      · exact disjR_of_subR_right hsub_bottom (disjR_symm (hchosen_disj s hs1))
      · exact hd_rb
  · intro r hr q hq
    rw [hplaced] at hq
    rcases List.mem_append.1 hq with hq1 | hq2
    · rcases hmem_free' r hr with hr' | rfl | rfl
      · exact hfb4 r (List.mem_of_mem_erase hr') q hq1
      · exact disjR_of_subR_left hsub_right (hfb4 c.rect hrect q hq1)
      · exact disjR_of_subR_left hsub_bottom (hfb4 c.rect hrect q hq1)
    · rw [List.mem_singleton.1 hq2]
      rcases hmem_free' r hr with hr' | rfl | rfl
      · exact disjR_of_subR_right hsub_piece (disjR_symm (hchosen_disj r hr'))
      · exact disjR_symm hd_pr
      · exact disjR_symm hd_pb
  · rw [hplaced]
    refine List.pairwise_append.2 ⟨hfb5, by simp, ?_⟩
    intro a ha b hb
    rw [List.mem_singleton.1 hb]
    exact disjR_of_subR_right hsub_piece (disjR_symm (hfb4 c.rect hrect a ha))

lemma packGo_good (roll : ℚ) (ps : List Piece)
    (hnn : ∀ p ∈ ps, ∀ o ∈ p.ors, 0 ≤ o.1 ∧ 0 ≤ o.2) :
    ∀ st st', goodSt roll st → packGo st ps = some st' → goodSt roll st' := by
  induction ps with
  | nil =>
    intro st st' hg h
    rw [packGo_nil] at h
    injection h with h
    subst h
    exact hg
  | cons p ps ih =>
    intro st st' hg h
    rw [packGo_cons] at h
    cases hs : packStep st p with
    | none => rw [hs] at h; cases h
    | some st2 =>
      rw [hs, Option.some_bind] at h
      have hnp : ∀ o ∈ p.ors, 0 ≤ o.1 ∧ 0 ≤ o.2 :=
        hnn p (List.mem_cons_self p ps)
      have hnr : ∀ p' ∈ ps, ∀ o ∈ p'.ors, 0 ≤ o.1 ∧ 0 ≤ o.2 :=
        fun p' hp' => hnn p' (List.mem_cons_of_mem p hp')
      exact ih hnr st2 st' (packStep_good hnp hg hs) h

lemma initSt_good (roll : ℚ) : goodSt roll (initSt roll) := by
  refine ⟨?_, ?_, ?_, ?_, ?_⟩ <;> simp [initSt, goodSt]

/-- C4 (amended): for every piece list whose orientation dimensions are
all nonnegative, a successful `pack` yields placements that are pairwise
interior-disjoint and lie within `[0, roll_width]` on the width (`x`)
axis. -/
theorem pack_placements_within_roll (roll : ℚ) (ps : List Piece)
    (hnn : ∀ p ∈ ps, ∀ o ∈ p.ors, 0 ≤ o.1 ∧ 0 ≤ o.2)
    (placed : List Placed) (hp : pack roll ps = some placed) :
    (∀ q ∈ placed, 0 ≤ q.x ∧ q.x + q.w ≤ roll) ∧
    List.Pairwise (fun a b => disjR (placedRect a) (placedRect b)) placed := by
  unfold pack at hp
  cases hg : packGo (initSt roll) ps with
  | none => rw [hg] at hp; cases hp
  | some st' =>
    rw [hg] at hp
    injection hp with hp
    obtain ⟨_, h2, _, _, h5⟩ := packGo_good roll ps hnn (initSt roll) st'
      (initSt_good roll) hg
    rw [← hp]
    exact ⟨h2, h5⟩

/-- Witness for C4: the amended claim evaluated on a concrete nonnegative
piece. -/
theorem pack_placements_within_roll_witness :
    (∀ p ∈ ([⟨2, [(2, 2), (2, 2)]⟩] : List Piece), ∀ o ∈ p.ors, 0 ≤ o.1 ∧ 0 ≤ o.2) ∧
      pack 10 [⟨2, [(2, 2), (2, 2)]⟩] = some [⟨2, 0, 0, 2, 2⟩] ∧
      (∀ q ∈ ([⟨2, 0, 0, 2, 2⟩] : List Placed), 0 ≤ q.x ∧ q.x + q.w ≤ 10) ∧
      List.Pairwise (fun a b => disjR (placedRect a) (placedRect b))
        ([⟨2, 0, 0, 2, 2⟩] : List Placed) := by
  have hnn : ∀ p ∈ ([⟨2, [(2, 2), (2, 2)]⟩] : List Piece), ∀ o ∈ p.ors,
      0 ≤ o.1 ∧ 0 ≤ o.2 := by
    intro p hp o ho
    rw [List.mem_singleton.1 hp] at ho
    rcases List.mem_cons.1 ho with rfl | ho'
    · norm_num
    · rw [List.mem_singleton.1 ho']
      norm_num
  obtain ⟨h1, h2⟩ := pack_placements_within_roll 10 _ hnn _ pack_eval_example
  exact ⟨hnn, pack_eval_example, h1, h2⟩

/-- Counterexample to C4 as stated: a piece with a negative orientation
width is accepted by the fit test (`-5 ≤ fw`), creating a free rectangle
that sticks out to the left of the roll; the next (perfectly ordinary)
piece is then placed at `x = -5`, outside `[0, roll_width]`. -/
theorem pack_placements_counterexample :
    pack 10 [⟨1, [(-5, 3), (3, -5)]⟩, ⟨2, [(2, 2), (2, 2)]⟩] =
      some [⟨1, 0, 0, -5, 3⟩, ⟨2, -5, 0, 2, 2⟩] ∧
    (⟨2, -5, 0, 2, 2⟩ : Placed) ∈
      ([⟨1, 0, 0, -5, 3⟩, ⟨2, -5, 0, 2, 2⟩] : List Placed) ∧
    ¬ (0 ≤ (⟨2, -5, 0, 2, 2⟩ : Placed).x) := by
  refine ⟨?_, by simp, by norm_num⟩
  norm_num [pack, packGo, packStep, findBest, candidates, updBest, candFits,
    waste, initSt, appendIf, rightRect, bottomRect, placeAt, List.foldlM,
    List.erase_cons]

end RollNesting

